import Mathlib

/-!
Verification of the simple-file-manager file-grid access API.

The source (src/lib.rs, module fileapi) treats a text file as a grid of
lines and delimiter-separated fields.  We embed the data model shallowly:
file text is a list of characters, the file system is a map from paths to
optional contents, and every operation that can panic in the source is
modelled as an Except-valued function with an explicit error cause.
-/

namespace SimpleFileManager

/-- Characters of a file, a line or a field, modelling Rust string contents. -/
abbrev Str := List Char

/-- Rust str.split with a single-character pattern: split at every occurrence
of the separator, keeping empty pieces, with one piece even for empty input. -/
def splitChar (d : Char) : Str → List Str
  | [] => [[]]
  | c :: s =>
    if c = d then [] :: splitChar d s
    else
      match splitChar d s with
      | [] => [[c]]
      | p :: ps => (c :: p) :: ps

/-- Rust slice join with a single-character separator. -/
def joinChar (d : Char) : List Str → Str
  | [] => []
  | [p] => p
  | p :: q :: ps => p ++ d :: joinChar d (q :: ps)

/-- Drop one trailing carriage return, as Rust str.lines does on every piece
that was terminated by a newline. -/
def stripCR (s : Str) : Str :=
  if s.getLast? = some '\r' then s.dropLast else s

/-- Rust str.lines: split on the newline character, drop a single trailing
empty piece, and strip one carriage return at the end of every piece that was
followed by a newline (the final piece, not newline-terminated, is kept as is). -/
def linesOf (s : Str) : List Str :=
  match (splitChar '\n' s).reverse with
  | [] => []
  | lastPiece :: revBody =>
    (revBody.map stripCR).reverse ++ (if lastPiece = [] then [] else [lastPiece])

/-- ASCII whitespace, as recognised by trimming. -/
def isWS (c : Char) : Bool :=
  c = ' ' || c = '\t' || c = '\n' || c = '\r' || c = '\x0b' || c = '\x0c'

/-- Rust str.trim restricted to ASCII whitespace. -/
def trim (s : Str) : Str :=
  ((s.dropWhile isWS).reverse.dropWhile isWS).reverse

/-- Accumulate decimal digits; fails on any non-digit character. -/
def digitsVal? : Nat → Str → Option Nat
  | acc, [] => some acc
  | acc, c :: cs => if c.isDigit then digitsVal? (acc * 10 + (c.toNat - 48)) cs else none

/-- Rust usize parsing from a string: an optional plus sign followed by one or
more decimal digits, with the value bounded by the 64-bit machine word. -/
def parseUsize? (s : Str) : Option Nat :=
  let t := match s with
    | '+' :: rest => rest
    | _ => s
  match t with
  | [] => none
  | _ =>
    match digitsVal? 0 t with
    | none => none
    | some n => if n < 2 ^ 64 then some n else none

/-- Map a fallible function over a list, failing as soon as one element fails;
models a per-element unwrap inside a map. -/
def mapOpt (f : α → Option β) : List α → Option (List β)
  | [] => some []
  | x :: xs =>
    match f x with
    | none => none
    | some y =>
      match mapOpt f xs with
      | none => none
      | some ys => some (y :: ys)

/-- Zero-indexed list lookup. -/
def nth? : List α → Nat → Option α
  | [], _ => none
  | x :: _, 0 => some x
  | _ :: xs, n + 1 => nth? xs n

/-- One-indexed list lookup: fails at index zero (the source subtracts one
from an unsigned index, which panics) and past the end (the source's slice
indexing panics). -/
def idx1? (xs : List α) (i : Nat) : Option α :=
  if i = 0 then none else nth? xs (i - 1)

/-- The content written by commit: every stored line followed by a newline. -/
def commitLines : List Str → Str
  | [] => []
  | l :: ls => l ++ '\n' :: commitLines ls

/-- The field at a one-indexed (line, row) coordinate of a list of lines,
splitting the line by the delimiter. -/
def fieldAt (d : Char) (ls : List Str) (line row : Nat) : Option Str :=
  match idx1? ls line with
  | none => none
  | some ln => idx1? (splitChar d ln) row

/-- The field at a one-indexed (line, row) coordinate of raw file text. -/
def gridField? (d : Char) (text : Str) (line row : Nat) : Option Str :=
  fieldAt d (linesOf text) line row

/-- The causes of the panics in the source, as explicit error values. -/
inductive Err where
  | ioError
  | indexOutOfRange
  | parseError
  | invalidArgument
deriving DecidableEq

/-- The file system: a map from paths to the contents of existing files. -/
def FS : Type := Str → Option Str

/-- Writing a file: creation truncates, so the new content fully replaces
whatever was stored at the path before. -/
def writeFile (fs : FS) (p : Str) (content : Str) : FS :=
  fun q => if q = p then some content else fs q

/-- fileapi::FileAPI: a path plus the configured split character. -/
structure FileAPI where
  path : Str
  split : Char

/-- FileAPI::from: default split character is the space. -/
def FileAPI.fromPath (path : Str) : FileAPI := ⟨path, ' '⟩

/-- FileAPI::split: replace the split character. -/
def FileAPI.setSplit (f : FileAPI) (c : Char) : FileAPI := { f with split := c }

/-- fileapi::Reader: the raw loaded text, the owning handle and the queue of
raw field strings accumulated by read_value. -/
structure Reader where
  lines : Str
  file : FileAPI
  values : List Str

/-- Reader::from, given the content found at the handle's path. -/
def Reader.fromContent (f : FileAPI) (content : Str) : Reader := ⟨content, f, []⟩

/-- FileAPI::reader: loads the file once, failing if it is missing. -/
def FileAPI.reader (f : FileAPI) (fs : FS) : Except Err Reader :=
  match fs f.path with
  | none => .error .ioError
  | some content => .ok (Reader.fromContent f content)

/-- Reader::read_to_string: the full loaded text, unmodified. -/
def Reader.read_to_string (r : Reader) : Str := r.lines

/-- Reader::read_value: index the requested line, split it by the configured
delimiter, index the requested row, and append the raw field to the queue. -/
def Reader.read_value (r : Reader) (line row : Nat) : Except Err Reader :=
  match idx1? (linesOf r.lines) line with
  | none => .error .indexOutOfRange
  | some aLine =>
    match idx1? (splitChar r.file.split aLine) row with
    | none => .error .indexOutOfRange
    | some v => .ok { r with values := r.values ++ [v] }

/-- Reader::execute: trim and parse every queued value, in queue order. -/
def Reader.execute (r : Reader) (parse : Str → Option α) : Except Err (List α) :=
  match mapOpt (fun v => parse (trim v)) r.values with
  | none => .error .parseError
  | some vs => .ok vs

/-- Reader::read_line_parse: split one line by the delimiter, trim every
field and parse it. -/
def Reader.read_line_parse (parse : Str → Option α) (line : Str) (split : Char) :
    Option (List α) :=
  mapOpt (fun s => parse (trim s)) (splitChar split line)

/-- The loop of Reader::read_header: parse the next line, n times, failing
when the line iterator is exhausted early. -/
def headGo (parse : Str → Option α) (split : Char) : Nat → List Str → Except Err (List (List α))
  | 0, _ => .ok []
  | _ + 1, [] => .error .indexOutOfRange
  | n + 1, l :: rest =>
    match Reader.read_line_parse parse l split with
    | none => .error .parseError
    | some v => (headGo parse split n rest).map (fun vs => v :: vs)

/-- Reader::read_header: rejects a length below one, then parses the first
len lines. -/
def Reader.read_header (r : Reader) (parse : Str → Option α) (len : Nat) :
    Except Err (List (List α)) :=
  if len < 1 then .error .invalidArgument
  else headGo parse r.file.split len (linesOf r.lines)

/-- Reader::read_footer: parse the last line. -/
def Reader.read_footer (r : Reader) (parse : Str → Option α) : Except Err (List α) :=
  match (linesOf r.lines).getLast? with
  | none => .error .indexOutOfRange
  | some l =>
    match Reader.read_line_parse parse l r.file.split with
    | none => .error .parseError
    | some v => .ok v

/-- The loop of Reader::read_body: iterate a counter over the first
(length - footer) positions, advancing the line iterator at every step and
parsing once the counter has passed the header lines. -/
def bodyGo (parse : Str → Option α) (split : Char) (header : Nat) :
    Nat → Nat → List Str → Except Err (List (List α))
  | 0, _, _ => .ok []
  | m + 1, i, rest =>
    if i < header then bodyGo parse split header m (i + 1) (rest.drop 1)
    else
      match rest with
      | [] => .error .indexOutOfRange
      | l :: rest' =>
        match Reader.read_line_parse parse l split with
        | none => .error .parseError
        | some v => (bodyGo parse split header m (i + 1) rest').map (fun vs => v :: vs)

/-- Reader::read_body: the source subtracts footer from the line count, which
panics when footer exceeds it. -/
def Reader.read_body (r : Reader) (parse : Str → Option α) (header footer : Nat) :
    Except Err (List (List α)) :=
  let ls := linesOf r.lines
  if ls.length < footer then .error .indexOutOfRange
  else bodyGo parse r.file.split header (ls.length - footer) 0 ls

/-- Reader::count_lines. -/
def Reader.count_lines (r : Reader) : Nat := (linesOf r.lines).length

/-- The per-line step of Reader::read_csv: split on a literal comma, index
the row, and parse the field exactly as extracted, without trimming. -/
def csvGo (parse : Str → Option α) (row : Nat) : List Str → Except Err (List α)
  | [] => .ok []
  | l :: rest =>
    match idx1? (splitChar ',' l) row with
    | none => .error .indexOutOfRange
    | some s =>
      match parse s with
      | none => .error .parseError
      | some v => (csvGo parse row rest).map (fun vs => v :: vs)

/-- Reader::read_csv: skip the first line, then extract and parse the row-th
comma-separated field of every remaining line. -/
def Reader.read_csv (r : Reader) (parse : Str → Option α) (row : Nat) :
    Except Err (List α) :=
  csvGo parse row ((linesOf r.lines).drop 1)

/-- A chain of Reader::read_value calls, stopping at the first failure. -/
def chainReads (r : Reader) : List (Nat × Nat) → Except Err Reader
  | [] => .ok r
  | c :: cs =>
    match r.read_value c.1 c.2 with
    | .error e => .error e
    | .ok r' => chainReads r' cs

/-- fileapi::Changer: the loaded line sequence and the owning handle. -/
structure Changer where
  lines : List Str
  file : FileAPI

/-- Changer::from, given the content found at the handle's path. -/
def Changer.fromContent (f : FileAPI) (content : Str) : Changer :=
  ⟨linesOf content, f⟩

/-- FileAPI::changer: loads the file once, failing if it is missing. -/
def FileAPI.changer (f : FileAPI) (fs : FS) : Except Err Changer :=
  match fs f.path with
  | none => .error .ioError
  | some content => .ok (Changer.fromContent f content)

/-- Changer::change_value: split the target line by the delimiter, replace
the row-th field with the literal value, rejoin with the delimiter and store
the line back. -/
def Changer.change_value (c : Changer) (line row : Nat) (value : Str) :
    Except Err Changer :=
  match idx1? c.lines line with
  | none => .error .indexOutOfRange
  | some aLine =>
    match idx1? (splitChar c.file.split aLine) row with
    | none => .error .indexOutOfRange
    | some _ =>
      .ok { c with
            lines := c.lines.set (line - 1)
              (joinChar c.file.split ((splitChar c.file.split aLine).set (row - 1) value)) }

/-- Changer::execute: create (truncate) the file at the handle's path, write
every stored line followed by a newline, and return the owning handle. -/
def Changer.execute (c : Changer) (fs : FS) : FS × FileAPI :=
  (writeFile fs c.file.path (commitLines c.lines), c.file)

/-- fileapi::Builder: the pending lines and the owning handle. -/
structure Builder where
  lines : List Str
  file : FileAPI

/-- FileAPI::builder: no content is loaded. -/
def FileAPI.builder (f : FileAPI) : Builder := ⟨[], f⟩

/-- Builder::write_line: append one raw line. -/
def Builder.write_line (b : Builder) (line : Str) : Builder :=
  { b with lines := b.lines ++ [line] }

/-- Builder::execute: create (truncate) the file at the handle's path, write
every stored line followed by a newline, and return the owning handle. -/
def Builder.execute (b : Builder) (fs : FS) : FS × FileAPI :=
  (writeFile fs b.file.path (commitLines b.lines), b.file)

/-! ### Helper lemmas about the string primitives -/

theorem nth?_lt_length : ∀ (l : List α) (i : Nat) (a : α), nth? l i = some a → i < l.length
  | [], _, _, h => by simp [nth?] at h
  | _ :: _, 0, _, _ => by simp
  | _ :: xs, n + 1, a, h => by
    simp only [nth?] at h
    have := nth?_lt_length xs n a h
    simpa using this

theorem nth?_mem : ∀ (l : List α) (i : Nat) (a : α), nth? l i = some a → a ∈ l
  | [], _, _, h => by simp [nth?] at h
  | x :: _, 0, a, h => by
    simp only [nth?, Option.some.injEq] at h
    simp [h]
  | _ :: xs, n + 1, a, h => by
    simp only [nth?] at h
    exact List.mem_cons_of_mem _ (nth?_mem xs n a h)

theorem nth?_set_self : ∀ (l : List α) (i : Nat) (a : α), i < l.length →
    nth? (l.set i a) i = some a
  | [], i, _, h => by simp at h
  | _ :: _, 0, _, _ => by simp [nth?]
  | _ :: xs, n + 1, a, h => by
    simp only [List.set, nth?]
    exact nth?_set_self xs n a (by simpa using h)

theorem nth?_set_ne : ∀ (l : List α) (i j : Nat) (a : α), i ≠ j →
    nth? (l.set i a) j = nth? l j
  | [], _, _, _, _ => by simp
  | _ :: _, 0, 0, _, h => absurd rfl h
  | _ :: _, 0, _ + 1, _, _ => by simp [nth?]
  | _ :: _, _ + 1, 0, _, _ => by simp [nth?]
  | _ :: xs, i + 1, j + 1, a, h => by
    simp only [List.set, nth?]
    exact nth?_set_ne xs i j a (fun hc => h (by rw [hc]))

theorem splitChar_ne_nil (d : Char) : ∀ s : Str, splitChar d s ≠ []
  | [] => by simp [splitChar]
  | c :: s => by
    by_cases h : c = d
    · simp [splitChar, h]
    · simp only [splitChar, if_neg h]
      cases hs : splitChar d s with
      | nil => simp
      | cons p ps => simp

theorem joinChar_cons_cons (d : Char) (p q : Str) (ps : List Str) :
    joinChar d (p :: q :: ps) = p ++ d :: joinChar d (q :: ps) := rfl

theorem splitChar_cons (d c : Char) (s : Str) :
    splitChar d (c :: s) =
      if c = d then [] :: splitChar d s
      else
        match splitChar d s with
        | [] => [[c]]
        | p :: ps => (c :: p) :: ps := rfl

theorem joinChar_splitChar (d : Char) : ∀ s : Str, joinChar d (splitChar d s) = s
  | [] => rfl
  | c :: s => by
    have ih := joinChar_splitChar d s
    by_cases h : c = d
    · rw [splitChar, if_pos h]
      cases hs : splitChar d s with
      | nil => exact absurd hs (splitChar_ne_nil d s)
      | cons p ps =>
        rw [hs] at ih
        rw [joinChar_cons_cons]
        simp [ih, h]
    · rw [splitChar, if_neg h]
      cases hs : splitChar d s with
      | nil => exact absurd hs (splitChar_ne_nil d s)
      | cons p ps =>
        rw [hs] at ih
        cases ps with
        | nil => simpa [joinChar] using congrArg (c :: ·) ih
        | cons q qs =>
          rw [joinChar_cons_cons] at ih ⊢
          simpa using congrArg (c :: ·) ih

theorem not_mem_of_mem_splitChar (d : Char) :
    ∀ s : Str, ∀ p ∈ splitChar d s, d ∉ p
  | [], p, hp => by
    simp [splitChar] at hp
    simp [hp]
  | c :: s, p, hp => by
    by_cases h : c = d
    · rw [splitChar, if_pos h] at hp
      rcases List.mem_cons.1 hp with h1 | h1
      · simp [h1]
      · exact not_mem_of_mem_splitChar d s p h1
    · rw [splitChar, if_neg h] at hp
      cases hs : splitChar d s with
      | nil => exact absurd hs (splitChar_ne_nil d s)
      | cons q qs =>
        rw [hs] at hp
        rcases List.mem_cons.1 hp with h1 | h1
        · subst h1
          intro hd
          rcases List.mem_cons.1 hd with h2 | h2
          · exact h h2.symm
          · exact not_mem_of_mem_splitChar d s q (hs ▸ List.mem_cons_self q qs) h2
        · exact not_mem_of_mem_splitChar d s p (hs ▸ List.mem_cons_of_mem q h1)

theorem mem_of_mem_splitChar (d : Char) :
    ∀ s : Str, ∀ p ∈ splitChar d s, ∀ c ∈ p, c ∈ s
  | [], p, hp, c, hc => by
    simp [splitChar] at hp
    subst hp
    simp at hc
  | a :: s, p, hp, c, hc => by
    by_cases h : a = d
    · rw [splitChar, if_pos h] at hp
      rcases List.mem_cons.1 hp with h1 | h1
      · subst h1; simp at hc
      · exact List.mem_cons_of_mem _ (mem_of_mem_splitChar d s p h1 c hc)
    · rw [splitChar, if_neg h] at hp
      cases hs : splitChar d s with
      | nil => exact absurd hs (splitChar_ne_nil d s)
      | cons q qs =>
        rw [hs] at hp
        rcases List.mem_cons.1 hp with h1 | h1
        · subst h1
          rcases List.mem_cons.1 hc with h2 | h2
          · simp [h2]
          · exact List.mem_cons_of_mem _
              (mem_of_mem_splitChar d s q (hs ▸ List.mem_cons_self q qs) c h2)
        · exact List.mem_cons_of_mem _
            (mem_of_mem_splitChar d s p (hs ▸ List.mem_cons_of_mem q h1) c hc)

theorem splitChar_of_not_mem (d : Char) : ∀ s : Str, d ∉ s → splitChar d s = [s]
  | [], _ => rfl
  | c :: s, h => by
    have hc : c ≠ d := fun hc => h (hc ▸ List.mem_cons_self c s)
    have hs : d ∉ s := fun hm => h (List.mem_cons_of_mem c hm)
    rw [splitChar, if_neg hc, splitChar_of_not_mem d s hs]

theorem splitChar_append_cons (d : Char) :
    ∀ l t : Str, d ∉ l → splitChar d (l ++ d :: t) = l :: splitChar d t
  | [], t, _ => by simp [splitChar]
  | c :: l, t, h => by
    have hc : c ≠ d := fun hc => h (hc ▸ List.mem_cons_self c l)
    have hl : d ∉ l := fun hm => h (List.mem_cons_of_mem c hm)
    have ih := splitChar_append_cons d l t hl
    show splitChar d (c :: (l ++ d :: t)) = (c :: l) :: splitChar d t
    rw [splitChar_cons, if_neg hc, ih]

theorem splitChar_joinChar (d : Char) :
    ∀ ps : List Str, ps ≠ [] → (∀ p ∈ ps, d ∉ p) → splitChar d (joinChar d ps) = ps
  | [], h, _ => absurd rfl h
  | [p], _, hm => by
    simp only [joinChar]
    exact splitChar_of_not_mem d p (hm p (List.mem_singleton_self p))
  | p :: q :: ps, _, hm => by
    rw [joinChar_cons_cons,
      splitChar_append_cons d p (joinChar d (q :: ps)) (hm p (List.mem_cons_self _ _)),
      splitChar_joinChar d (q :: ps) (by simp)
        (fun x hx => hm x (List.mem_cons_of_mem p hx))]

theorem splitChar_append_delim (d : Char) :
    ∀ s : Str, splitChar d (s ++ [d]) = splitChar d s ++ [[]]
  | [] => by simp [splitChar]
  | c :: s => by
    have ih := splitChar_append_delim d s
    by_cases h : c = d
    · show splitChar d (c :: (s ++ [d])) = splitChar d (c :: s) ++ [[]]
      rw [splitChar_cons, splitChar_cons, if_pos h, if_pos h, ih]
      simp
    · show splitChar d (c :: (s ++ [d])) = splitChar d (c :: s) ++ [[]]
      rw [splitChar_cons, splitChar_cons, if_neg h, if_neg h, ih]
      cases hs : splitChar d s with
      | nil => exact absurd hs (splitChar_ne_nil d s)
      | cons p ps => simp [hs]

theorem mem_joinChar (d : Char) :
    ∀ ps : List Str, ∀ c ∈ joinChar d ps, c = d ∨ ∃ p ∈ ps, c ∈ p
  | [], c, hc => by simp [joinChar] at hc
  | [p], c, hc => by
    right
    exact ⟨p, List.mem_singleton_self p, hc⟩
  | p :: q :: ps, c, hc => by
    rw [joinChar_cons_cons] at hc
    rcases List.mem_append.1 hc with h1 | h1
    · exact Or.inr ⟨p, List.mem_cons_self _ _, h1⟩
    · rcases List.mem_cons.1 h1 with h2 | h2
      · exact Or.inl h2
      · rcases mem_joinChar d (q :: ps) c h2 with h3 | ⟨x, hx, hcx⟩
        · exact Or.inl h3
        · exact Or.inr ⟨x, List.mem_cons_of_mem p hx, hcx⟩

theorem stripCR_of_not_mem (s : Str) (h : '\r' ∉ s) : stripCR s = s := by
  unfold stripCR
  rw [if_neg]
  intro hlast
  exact h (List.mem_of_getLast?_eq_some hlast)

theorem getLast?_ne_of_not_mem {s : Str} {c : Char} (h : c ∉ s) : s.getLast? ≠ some c :=
  fun hlast => h (List.mem_of_getLast?_eq_some hlast)

theorem stripCR_of_getLast_ne {s : Str} (h : s.getLast? ≠ some '\r') : stripCR s = s := by
  unfold stripCR
  rw [if_neg h]

theorem splitChar_getLast_ne_nil (d : Char) :
    ∀ s : Str, s ≠ [] → s.getLast? ≠ some d → ∀ p, (splitChar d s).getLast? = some p → p ≠ []
  | [], hne, _, _, _ => absurd rfl hne
  | [c], _, hlast, p, hp => by
    have hc : c ≠ d := by simpa using hlast
    rw [splitChar_cons, if_neg hc] at hp
    simp only [splitChar] at hp
    simp at hp
    simp [← hp]
  | c :: c' :: s, _, hlast, p, hp => by
    have hlast' : (c' :: s).getLast? ≠ some d := by
      simpa using hlast
    by_cases h : c = d
    · rw [splitChar_cons, if_pos h] at hp
      cases hs : splitChar d (c' :: s) with
      | nil => exact absurd hs (splitChar_ne_nil d (c' :: s))
      | cons q qs =>
        rw [hs, List.getLast?_cons_cons] at hp
        exact splitChar_getLast_ne_nil d (c' :: s) (by simp) hlast' p (hs ▸ hp)
    · rw [splitChar_cons, if_neg h] at hp
      cases hs : splitChar d (c' :: s) with
      | nil => exact absurd hs (splitChar_ne_nil d (c' :: s))
      | cons q qs =>
        rw [hs] at hp
        cases qs with
        | nil =>
          simp at hp
          simp [← hp]
        | cons q' qs' =>
          rw [List.getLast?_cons_cons, ← List.getLast?_cons_cons (a := q)] at hp
          exact splitChar_getLast_ne_nil d (c' :: s) (by simp) hlast' p (hs ▸ hp)

theorem linesOf_append_cons (l t : Str) (h : '\n' ∉ l) :
    linesOf (l ++ '\n' :: t) = stripCR l :: linesOf t := by
  unfold linesOf
  rw [splitChar_append_cons '\n' l t h, List.reverse_cons]
  cases hrev : (splitChar '\n' t).reverse with
  | nil => exact absurd (List.reverse_eq_nil_iff.1 hrev) (splitChar_ne_nil '\n' t)
  | cons lastPiece revBody =>
    simp [List.map_append]

theorem linesOf_commitLines :
    ∀ ls : List Str, (∀ l ∈ ls, '\n' ∉ l ∧ l.getLast? ≠ some '\r') →
      linesOf (commitLines ls) = ls
  | [], _ => rfl
  | l :: ls, h => by
    have hl := h l (List.mem_cons_self l ls)
    have hrest : ∀ x ∈ ls, '\n' ∉ x ∧ x.getLast? ≠ some '\r' :=
      fun x hx => h x (List.mem_cons_of_mem l hx)
    show linesOf (l ++ '\n' :: commitLines ls) = l :: ls
    rw [linesOf_append_cons l (commitLines ls) hl.1, stripCR_of_getLast_ne hl.2,
      linesOf_commitLines ls hrest]

theorem commitLines_eq_joinChar : ∀ ls : List Str, ls ≠ [] →
    commitLines ls = joinChar '\n' ls ++ ['\n']
  | [], h => absurd rfl h
  | [l], _ => by simp [commitLines, joinChar]
  | l :: l' :: ls, _ => by
    show l ++ '\n' :: commitLines (l' :: ls) = joinChar '\n' (l :: l' :: ls) ++ ['\n']
    rw [commitLines_eq_joinChar (l' :: ls) (by simp), joinChar_cons_cons]
    simp

theorem linesOf_of_trailing_nl (s : Str) (h : '\r' ∉ s) :
    linesOf (s ++ ['\n']) = splitChar '\n' s := by
  have hid : ∀ p ∈ splitChar '\n' s, stripCR p = p := fun p hp =>
    stripCR_of_getLast_ne
      (getLast?_ne_of_not_mem (fun hc => h (mem_of_mem_splitChar '\n' s p hp '\r' hc)))
  unfold linesOf
  rw [splitChar_append_delim, List.reverse_append]
  show (match ([] : Str) :: (splitChar '\n' s).reverse with
    | [] => ([] : List Str)
    | lastPiece :: revBody =>
      (revBody.map stripCR).reverse ++ (if lastPiece = [] then [] else [lastPiece])) = _
  simp only [List.map_reverse, List.reverse_reverse, reduceIte, List.append_nil]
  exact List.map_congr_left hid |>.trans (List.map_id _)

theorem linesOf_of_no_trailing_nl (s : Str) (h : '\r' ∉ s) (hne : s ≠ [])
    (hlast : s.getLast? ≠ some '\n') : linesOf s = splitChar '\n' s := by
  unfold linesOf
  cases hrev : (splitChar '\n' s).reverse with
  | nil => exact absurd (List.reverse_eq_nil_iff.1 hrev) (splitChar_ne_nil '\n' s)
  | cons lastPiece revBody =>
    have hplast : (splitChar '\n' s).getLast? = some lastPiece := by
      rw [List.getLast?_eq_head?_reverse, hrev]
      rfl
    have hpne : lastPiece ≠ [] :=
      splitChar_getLast_ne_nil '\n' s hne hlast lastPiece hplast
    have hmap : revBody.map stripCR = revBody := by
      refine (List.map_congr_left ?_).trans (List.map_id _)
      intro p hp
      have hmem : p ∈ splitChar '\n' s := by
        rw [← List.mem_reverse, hrev]
        exact List.mem_cons_of_mem lastPiece hp
      exact stripCR_of_getLast_ne
        (getLast?_ne_of_not_mem (fun hc => h (mem_of_mem_splitChar '\n' s p hmem '\r' hc)))
    show (revBody.map stripCR).reverse ++ (if lastPiece = [] then [] else [lastPiece]) =
      splitChar '\n' s
    rw [hmap, if_neg hpne, ← List.reverse_cons, ← hrev, List.reverse_reverse]

theorem mapOpt_cons_decomp (f : α → Option β) (x : α) (xs : List α) (ys : List β)
    (h : mapOpt f (x :: xs) = some ys) :
    ∃ y ys', f x = some y ∧ mapOpt f xs = some ys' ∧ ys = y :: ys' := by
  unfold mapOpt at h
  cases hx : f x with
  | none => rw [hx] at h; exact absurd h (by simp)
  | some y =>
    rw [hx] at h
    cases hxs : mapOpt f xs with
    | none => rw [hxs] at h; simp at h
    | some ys' =>
      rw [hxs] at h
      simp only [Option.some.injEq] at h
      exact ⟨y, ys', rfl, rfl, h.symm⟩

theorem mapOpt_cons_eq (f : α → Option β) (x : α) (xs : List α) (y : β) (ys : List β)
    (hx : f x = some y) (hxs : mapOpt f xs = some ys) :
    mapOpt f (x :: xs) = some (y :: ys) := by
  unfold mapOpt
  rw [hx, hxs]

theorem mapOpt_bind_decomp (f : α → Option β) (g : β → Option γ) :
    ∀ (xs : List α) (vals : List γ),
      mapOpt (fun x => (f x).bind g) xs = some vals →
      ∃ ys, mapOpt f xs = some ys ∧ mapOpt g ys = some vals
  | [], vals, h => by
    refine ⟨[], rfl, ?_⟩
    simpa [mapOpt] using h
  | x :: xs, vals, h => by
    obtain ⟨y, ys', hx, hxs, hv⟩ := mapOpt_cons_decomp _ x xs vals h
    cases hfx : f x with
    | none =>
      rw [hfx] at hx
      simp at hx
    | some b =>
      rw [hfx] at hx
      simp only [Option.some_bind] at hx
      obtain ⟨zs, hfz, hgz⟩ := mapOpt_bind_decomp f g xs ys' hxs
      exact ⟨b :: zs, mapOpt_cons_eq f x xs b zs hfx hfz,
        hv ▸ mapOpt_cons_eq g b zs y ys' hx hgz⟩

theorem mapOpt_length (f : α → Option β) :
    ∀ (xs : List α) (ys : List β), mapOpt f xs = some ys → ys.length = xs.length
  | [], ys, h => by
    simp only [mapOpt, Option.some.injEq] at h
    simp [← h]
  | x :: xs, ys, h => by
    obtain ⟨y, ys', _, hxs, hv⟩ := mapOpt_cons_decomp f x xs ys h
    subst hv
    simp [mapOpt_length f xs ys' hxs]

theorem except_bind_ok (a : α) (f : α → Except ε β) :
    (Except.ok a : Except ε α) >>= f = f a := rfl

theorem except_bind_error (e : ε) (f : α → Except ε β) :
    (Except.error e : Except ε α) >>= f = .error e := rfl

theorem set_ne_nil : ∀ (l : List α) (i : Nat) (a : α), l ≠ [] → l.set i a ≠ []
  | [], _, _, h => absurd rfl h
  | _ :: _, 0, _, _ => by simp
  | _ :: _, _ + 1, _, _ => by simp

theorem mem_set_subset : ∀ (l : List α) (i : Nat) (a b : α), b ∈ l.set i a → b ∈ l ∨ b = a
  | [], _, _, _, h => by simp at h
  | _ :: _, 0, _, b, h => by
    rcases List.mem_cons.1 h with h1 | h1
    · exact Or.inr h1
    · exact Or.inl (List.mem_cons_of_mem _ h1)
  | x :: xs, i + 1, a, b, h => by
    rcases List.mem_cons.1 h with h1 | h1
    · exact Or.inl (h1 ▸ List.mem_cons_self x xs)
    · rcases mem_set_subset xs i a b h1 with h2 | h2
      · exact Or.inl (List.mem_cons_of_mem _ h2)
      · exact Or.inr h2

/-! ### Behaviour of the session operations -/

theorem read_value_ok (r : Reader) (line row : Nat) (v : Str)
    (h : fieldAt r.file.split (linesOf r.lines) line row = some v) :
    r.read_value line row = .ok { r with values := r.values ++ [v] } := by
  unfold fieldAt at h
  unfold Reader.read_value
  cases hl : idx1? (linesOf r.lines) line with
  | none => rw [hl] at h; simp at h
  | some aLine =>
    rw [hl] at h
    dsimp only at h ⊢
    rw [h]

theorem read_value_err (r : Reader) (line row : Nat)
    (h : fieldAt r.file.split (linesOf r.lines) line row = none) :
    r.read_value line row = .error .indexOutOfRange := by
  unfold fieldAt at h
  unfold Reader.read_value
  cases hl : idx1? (linesOf r.lines) line with
  | none => rfl
  | some aLine =>
    rw [hl] at h
    dsimp only at h ⊢
    rw [h]

theorem change_value_err (c : Changer) (line row : Nat) (value : Str)
    (h : fieldAt c.file.split c.lines line row = none) :
    c.change_value line row value = .error .indexOutOfRange := by
  unfold fieldAt at h
  unfold Changer.change_value
  cases hl : idx1? c.lines line with
  | none => rfl
  | some aLine =>
    rw [hl] at h
    dsimp only at h ⊢
    rw [h]

theorem change_value_ok (c : Changer) (line row : Nat) (value aL w : Str)
    (hL : idx1? c.lines line = some aL)
    (hw : idx1? (splitChar c.file.split aL) row = some w) :
    c.change_value line row value = .ok { c with
      lines := c.lines.set (line - 1)
        (joinChar c.file.split ((splitChar c.file.split aL).set (row - 1) value)) } := by
  unfold Changer.change_value
  rw [hL]
  dsimp only
  rw [hw]

theorem chainReads_spec :
    ∀ (coords : List (Nat × Nat)) (r : Reader) (raws : List Str),
      mapOpt (fun c => fieldAt r.file.split (linesOf r.lines) c.1 c.2) coords = some raws →
      chainReads r coords = .ok { r with values := r.values ++ raws }
  | [], r, raws, h => by
    simp only [mapOpt, Option.some.injEq] at h
    subst h
    show Except.ok r = _
    simp
  | c :: cs, r, raws, h => by
    obtain ⟨v, raws', hv, hcs, hr⟩ := mapOpt_cons_decomp _ c cs raws h
    subst hr
    unfold chainReads
    rw [read_value_ok r c.1 c.2 v hv]
    dsimp only
    have ih := chainReads_spec cs { r with values := r.values ++ [v] } raws' hcs
    rw [ih]
    simp

/-- Claim C1: for every loaded file text and every chain of in-bounds
coordinates whose fields, trimmed and parsed, yield the expected values,
chaining read_value calls and then execute returns exactly those values in
queue order: the result of splitting the 1-indexed line by the configured
delimiter, taking the 1-indexed field, trimming it and parsing it. -/
theorem claim_C1 {α : Type} (parse : Str → Option α) (f : FileAPI) (text : Str)
    (coords : List (Nat × Nat)) (vals : List α)
    (h : mapOpt (fun c => (gridField? f.split text c.1 c.2).bind (fun s => parse (trim s)))
      coords = some vals) :
    chainReads (Reader.fromContent f text) coords >>= (fun r => r.execute parse) =
      .ok vals := by
  obtain ⟨raws, hraws, hparse⟩ :=
    mapOpt_bind_decomp (fun c => gridField? f.split text c.1 c.2) (fun s => parse (trim s))
      coords vals h
  rw [chainReads_spec coords (Reader.fromContent f text) raws hraws, except_bind_ok]
  unfold Reader.execute
  show (match mapOpt (fun v => parse (trim v)) ([] ++ raws) with
    | none => Except.error Err.parseError
    | some vs => Except.ok vs) = Except.ok vals
  rw [List.nil_append, hparse]

/-- Witness for C1: the concrete scenario from the specification. -/
theorem claim_C1_witness :
    chainReads
        (Reader.fromContent ((FileAPI.fromPath (("filename.gph").data)).setSplit ',')
          (("1,2,3\n4,5,6\n7,8,9\n10,12").data))
        [(1, 2), (3, 2), (2, 1)] >>= (fun r => r.execute parseUsize?) =
      .ok [2, 8, 4] :=
  claim_C1 parseUsize? ((FileAPI.fromPath (("filename.gph").data)).setSplit ',')
    (("1,2,3\n4,5,6\n7,8,9\n10,12").data) [(1, 2), (3, 2), (2, 1)] [2, 8, 4] (by decide)

/-- Claim C2: execute on an edit or build session writes exactly the
session's line sequence, each line terminated by a newline, at the handle's
path, returns the owning handle, and the written content does not depend on
whatever was stored there before. -/
theorem claim_C2 (c : Changer) (b : Builder) (fs fs' : FS) :
    (c.execute fs).1 c.file.path = some (commitLines c.lines) ∧
    (c.execute fs).2 = c.file ∧
    (c.execute fs).1 c.file.path = (c.execute fs').1 c.file.path ∧
    (b.execute fs).1 b.file.path = some (commitLines b.lines) ∧
    (b.execute fs).2 = b.file ∧
    (b.execute fs).1 b.file.path = (b.execute fs').1 b.file.path := by
  refine ⟨?_, rfl, ?_, ?_, rfl, ?_⟩ <;>
    simp [Changer.execute, Builder.execute, writeFile]

theorem foldl_write_line : ∀ (ls : List Str) (b : Builder),
    (ls.foldl Builder.write_line b).lines = b.lines ++ ls ∧
    (ls.foldl Builder.write_line b).file = b.file
  | [], b => by simp
  | l :: ls, b => by
    have ih := foldl_write_line ls (b.write_line l)
    simp only [List.foldl_cons]
    refine ⟨?_, ih.2⟩
    rw [ih.1]
    simp [Builder.write_line]

/-- Claim C3 counterexample: for the empty sequence of lines the build
session commits an empty file, so the fresh reader's raw text is empty and
differs from the claimed join-plus-trailing-newline, which at zero lines is a
single newline. -/
theorem claim_C3_counterexample :
    (FileAPI.fromPath (("t.txt").data)).reader
        ((([] : List Str).foldl Builder.write_line
          (FileAPI.fromPath (("t.txt").data)).builder).execute (fun _ => none)).1 =
      .ok (Reader.fromContent (FileAPI.fromPath (("t.txt").data)) []) ∧
    (Reader.fromContent (FileAPI.fromPath (("t.txt").data)) []).read_to_string ≠
      joinChar '\n' ([] : List Str) ++ ['\n'] := by
  constructor
  · rfl
  · decide

/-- Claim C3 (amended): writing a nonempty sequence of newline-free lines
with a build session and committing, then reading the file back, yields
exactly those lines joined by newlines with a single trailing newline;
repeating the commit with the identical session leaves the file content
unchanged.  For zero lines the commit writes an empty file instead, with no
trailing newline. -/
theorem claim_C3 (f : FileAPI) (ls : List Str) (fs : FS)
    (hne : ls ≠ []) (hnl : ∀ l ∈ ls, '\n' ∉ l) :
    (∃ rdr : Reader,
      f.reader ((ls.foldl Builder.write_line f.builder).execute fs).1 = .ok rdr ∧
      rdr.read_to_string = joinChar '\n' ls ++ ['\n']) ∧
    ((ls.foldl Builder.write_line f.builder).execute
        ((ls.foldl Builder.write_line f.builder).execute fs).1).1 f.path =
      ((ls.foldl Builder.write_line f.builder).execute fs).1 f.path := by
  have hb := foldl_write_line ls f.builder
  have hlines : (ls.foldl Builder.write_line f.builder).lines = ls := by
    rw [hb.1]
    simp [FileAPI.builder]
  have hfile : (ls.foldl Builder.write_line f.builder).file = f := hb.2
  constructor
  · refine ⟨Reader.fromContent f (commitLines ls), ?_, ?_⟩
    · unfold FileAPI.reader Builder.execute writeFile
      rw [hfile, hlines]
      simp
    · show commitLines ls = joinChar '\n' ls ++ ['\n']
      exact commitLines_eq_joinChar ls hne
  · unfold Builder.execute writeFile
    rw [hfile, hlines]
    simp

/-- Witness for C3: two concrete lines round-trip through build and read. -/
theorem claim_C3_witness :
    (∃ rdr : Reader,
      (FileAPI.fromPath (("t.txt").data)).reader
          (([("ab").data, ("c").data].foldl Builder.write_line
            (FileAPI.fromPath (("t.txt").data)).builder).execute (fun _ => none)).1 =
        .ok rdr ∧
      rdr.read_to_string = joinChar '\n' [("ab").data, ("c").data] ++ ['\n']) ∧
    (([("ab").data, ("c").data].foldl Builder.write_line
        (FileAPI.fromPath (("t.txt").data)).builder).execute
        (([("ab").data, ("c").data].foldl Builder.write_line
          (FileAPI.fromPath (("t.txt").data)).builder).execute (fun _ => none)).1).1
      (("t.txt").data) =
      (([("ab").data, ("c").data].foldl Builder.write_line
        (FileAPI.fromPath (("t.txt").data)).builder).execute (fun _ => none)).1
        (("t.txt").data) :=
  claim_C3 (FileAPI.fromPath (("t.txt").data)) [("ab").data, ("c").data]
    (fun _ => none) (by decide) (by decide)

theorem bodyGo_spec {α : Type} (parse : Str → Option α) (split : Char) (header : Nat) :
    ∀ (m i : Nat) (rest : List Str) (vals : List (List α)),
      m ≤ rest.length →
      mapOpt (fun l => Reader.read_line_parse parse l split)
        ((rest.take m).drop (header - i)) = some vals →
      bodyGo parse split header m i rest = .ok vals
  | 0, i, rest, vals, _, hp => by
    simp only [List.take_zero, List.drop_nil, mapOpt, Option.some.injEq] at hp
    subst hp
    rfl
  | m + 1, i, rest, vals, hlen, hp => by
    cases rest with
    | nil => simp at hlen
    | cons x rest' =>
      have hlen' : m ≤ rest'.length := by
        simp only [List.length_cons] at hlen
        omega
      by_cases hi : i < header
      · have hk : header - i = (header - (i + 1)) + 1 := by omega
        rw [List.take_succ_cons, hk, List.drop_succ_cons] at hp
        unfold bodyGo
        rw [if_pos hi]
        simp only [List.drop_succ_cons, List.drop_zero]
        exact bodyGo_spec parse split header m (i + 1) rest' vals hlen' hp
      · have hk : header - i = 0 := by omega
        rw [List.take_succ_cons, hk, List.drop_zero] at hp
        obtain ⟨v, vs, hv, hvs, hval⟩ := mapOpt_cons_decomp _ x (rest'.take m) vals hp
        unfold bodyGo
        rw [if_neg hi]
        dsimp only
        rw [hv]
        dsimp only
        rw [bodyGo_spec parse split header m (i + 1) rest' vs hlen'
          (by rw [show header - (i + 1) = 0 by omega, List.drop_zero]; exact hvs), hval]
        rfl

theorem headGo_spec {α : Type} (parse : Str → Option α) (split : Char) :
    ∀ (n : Nat) (ls : List Str) (vals : List (List α)),
      n ≤ ls.length →
      mapOpt (fun l => Reader.read_line_parse parse l split) (ls.take n) = some vals →
      headGo parse split n ls = .ok vals
  | 0, _, vals, _, hp => by
    simp only [List.take_zero, mapOpt, Option.some.injEq] at hp
    subst hp
    rfl
  | n + 1, [], _, hlen, _ => by simp at hlen
  | n + 1, l :: rest, vals, hlen, hp => by
    rw [List.take_succ_cons] at hp
    obtain ⟨v, vs, hv, hvs, hval⟩ := mapOpt_cons_decomp _ l (rest.take n) vals hp
    have hlen' : n ≤ rest.length := by
      simp only [List.length_cons] at hlen
      omega
    unfold headGo
    rw [hv]
    dsimp only
    rw [headGo_spec parse split n rest vs hlen' hvs, hval]
    rfl

theorem csvGo_spec {α : Type} (parse : Str → Option α) (row : Nat) :
    ∀ (ls : List Str) (vals : List α),
      mapOpt (fun l => (idx1? (splitChar ',' l) row).bind parse) ls = some vals →
      csvGo parse row ls = .ok vals
  | [], vals, hp => by
    simp only [mapOpt, Option.some.injEq] at hp
    subst hp
    rfl
  | l :: rest, vals, hp => by
    obtain ⟨v, vs, hv, hvs, hval⟩ := mapOpt_cons_decomp _ l rest vals hp
    cases hf : idx1? (splitChar ',' l) row with
    | none => rw [hf] at hv; simp at hv
    | some s =>
      rw [hf] at hv
      simp only [Option.some_bind] at hv
      unfold csvGo
      rw [hf]
      dsimp only
      rw [hv]
      dsimp only
      rw [csvGo_spec parse row rest vs hvs, hval]
      rfl

/-- The concrete sample file content used by the specification's scenarios. -/
def sampleText : Str := ("1,2,3\n4,5,6\n7,8,9\n10,12").data

/-- A handle configured with the comma delimiter, as in the scenarios. -/
def sampleFile : FileAPI := (FileAPI.fromPath (("filename.gph").data)).setSplit ','

/-- Claim C5: a read_value or change_value call whose line or row coordinate
is out of range fails with IndexOutOfRange at that call itself, so that no
later resolution or commit step is ever reached, and no mutation happens. -/
theorem claim_C5 (r : Reader) (c : Changer) (l1 r1 l2 r2 : Nat) (value : Str)
    (hr : fieldAt r.file.split (linesOf r.lines) l1 r1 = none)
    (hc : fieldAt c.file.split c.lines l2 r2 = none) :
    (∀ (β : Type) (k : Reader → Except Err β),
      (r.read_value l1 r1 >>= k) = .error .indexOutOfRange) ∧
    (∀ (β : Type) (k : Changer → Except Err β),
      (c.change_value l2 r2 value >>= k) = .error .indexOutOfRange) := by
  constructor
  · intro β k
    rw [read_value_err r l1 r1 hr, except_bind_error]
  · intro β k
    rw [change_value_err c l2 r2 value hc, except_bind_error]

/-- Witness for C5: an out-of-range line in a read chain and an out-of-range
row in an edit chain both fail immediately with IndexOutOfRange. -/
theorem claim_C5_witness :
    ((Reader.fromContent sampleFile sampleText).read_value 5 1 >>=
      (fun r => r.execute parseUsize?)) = .error .indexOutOfRange ∧
    ((Changer.fromContent sampleFile sampleText).change_value 1 4 (("9").data) >>=
      (fun c => Except.ok (c.execute (fun _ => none)))) = .error .indexOutOfRange := by
  have h := claim_C5 (Reader.fromContent sampleFile sampleText)
    (Changer.fromContent sampleFile sampleText) 5 1 1 4 (("9").data)
    (by decide) (by decide)
  exact ⟨h.1 _ _, h.2 _ _⟩

/-- Claim C6: with header + footer at most the line count, read_body returns
exactly the lines at 1-indexed positions header+1 through count−footer, in
file order, each split by the configured delimiter with every field trimmed
and parsed. -/
theorem claim_C6 {α : Type} (parse : Str → Option α) (f : FileAPI) (text : Str)
    (header footer : Nat) (vals : List (List α))
    (hb : header + footer ≤ (linesOf text).length)
    (hp : mapOpt (fun l => Reader.read_line_parse parse l f.split)
        (((linesOf text).take ((linesOf text).length - footer)).drop header) = some vals) :
    (Reader.fromContent f text).read_body parse header footer = .ok vals := by
  show (if (linesOf text).length < footer then Except.error Err.indexOutOfRange
    else bodyGo parse f.split header ((linesOf text).length - footer) 0 (linesOf text)) =
    Except.ok vals
  rw [if_neg (by omega)]
  exact bodyGo_spec parse f.split header ((linesOf text).length - footer) 0 (linesOf text)
    vals (by omega) (by simpa using hp)

/-- Witness for C6: the specification's sample body scenario. -/
theorem claim_C6_witness :
    (Reader.fromContent sampleFile sampleText).read_body parseUsize? 1 1 =
      .ok [[4, 5, 6], [7, 8, 9]] :=
  claim_C6 parseUsize? sampleFile sampleText 1 1 [[4, 5, 6], [7, 8, 9]]
    (by decide) (by decide)

/-- Claim C7: read_csv skips the first line, then for every remaining line in
file order splits on the fixed comma character and parses the field at the
1-indexed row, returning one value per remaining line; the result does not
depend on the configured delimiter. -/
theorem claim_C7 {α : Type} (parse : Str → Option α) (f : FileAPI) (text : Str)
    (row : Nat) (vals : List α)
    (hp : mapOpt (fun l => (idx1? (splitChar ',' l) row).bind parse)
        ((linesOf text).drop 1) = some vals) :
    (Reader.fromContent f text).read_csv parse row = .ok vals ∧
    vals.length = ((linesOf text).drop 1).length ∧
    (∀ g : FileAPI, (Reader.fromContent g text).read_csv parse row =
      (Reader.fromContent f text).read_csv parse row) :=
  ⟨csvGo_spec parse row _ vals hp, mapOpt_length _ _ _ hp, fun _ => rfl⟩

/-- Witness for C7: a handle with the default space delimiter still reads a
comma-separated column. -/
theorem claim_C7_witness :
    (Reader.fromContent (FileAPI.fromPath (("d.csv").data))
        (("h\n1,2\n3,4").data)).read_csv parseUsize? 2 = .ok [2, 4] ∧
    ([2, 4] : List Nat).length = ((linesOf (("h\n1,2\n3,4").data)).drop 1).length :=
  ⟨(claim_C7 parseUsize? (FileAPI.fromPath (("d.csv").data)) (("h\n1,2\n3,4").data)
      2 [2, 4] (by decide)).1,
   (claim_C7 parseUsize? (FileAPI.fromPath (("d.csv").data)) (("h\n1,2\n3,4").data)
      2 [2, 4] (by decide)).2.1⟩

/-- Claim C8: read_header fails with InvalidArgument when the length is below
one; for a length between one and the line count it returns exactly the first
len lines, each split by the configured delimiter with every field trimmed
and parsed, regardless of the remaining content. -/
theorem claim_C8 {α : Type} (parse : Str → Option α) (f : FileAPI) (text : Str)
    (len : Nat) (vals : List (List α)) :
    (len < 1 →
      (Reader.fromContent f text).read_header parse len = .error .invalidArgument) ∧
    (1 ≤ len → len ≤ (linesOf text).length →
      mapOpt (fun l => Reader.read_line_parse parse l f.split) ((linesOf text).take len) =
        some vals →
      (Reader.fromContent f text).read_header parse len = .ok vals) := by
  constructor
  · intro hlt
    show (if len < 1 then Except.error Err.invalidArgument
      else headGo parse f.split len (linesOf text)) = Except.error Err.invalidArgument
    rw [if_pos hlt]
  · intro h1 h2 hp
    show (if len < 1 then Except.error Err.invalidArgument
      else headGo parse f.split len (linesOf text)) = Except.ok vals
    rw [if_neg (by omega)]
    exact headGo_spec parse f.split len (linesOf text) vals h2 hp

/-- Witness for C8: length zero is rejected and length one returns the parsed
first line of the sample file. -/
theorem claim_C8_witness :
    (Reader.fromContent sampleFile sampleText).read_header parseUsize? 0 =
      .error .invalidArgument ∧
    (Reader.fromContent sampleFile sampleText).read_header parseUsize? 1 =
      .ok [[1, 2, 3]] :=
  ⟨(claim_C8 parseUsize? sampleFile sampleText 0 [[1, 2, 3]]).1 (by decide),
   (claim_C8 parseUsize? sampleFile sampleText 1 [[1, 2, 3]]).2
     (by decide) (by decide) (by decide)⟩

/-- Claim C9: read_csv parses each comma field exactly as extracted, with no
trimming, unlike the queued-read path which trims before parsing: on content
whose target field carries a leading space, reading the field by coordinate
and executing succeeds, while read_csv on the same column fails with a parse
error. -/
theorem claim_C9 :
    ((Reader.fromContent ((FileAPI.fromPath (("d.csv").data)).setSplit ',')
        (("h,h\n 5, 6").data)).read_value 2 1 >>=
      (fun r => r.execute parseUsize?)) = .ok [5] ∧
    (Reader.fromContent ((FileAPI.fromPath (("d.csv").data)).setSplit ',')
        (("h,h\n 5, 6").data)).read_csv parseUsize? 1 = .error .parseError := by
  constructor
  · rfl
  · rfl

/-- Claim C10 counterexample: a file whose content ends in a newline but uses
a CRLF line ending is not reproduced byte-for-byte by an edit session that
commits without any change: the carriage return is lost. -/
theorem claim_C10_counterexample :
    (("a\r\n").data).getLast? = some '\n' ∧
    ((Changer.fromContent (FileAPI.fromPath (("x").data)) (("a\r\n").data)).execute
        (fun _ => none)).1 (("x").data) ≠ some (("a\r\n").data) := by
  constructor
  · rfl
  · decide

/-- Claim C10 (amended): for every non-empty file content containing no
carriage return, committing an unmodified edit session reproduces the bytes
exactly when the content ends in a newline, and appends a single newline when
it does not; contents with carriage returns before newlines are not preserved
(the CR is stripped on load and not restored). -/
theorem claim_C10_amended (f : FileAPI) (content : Str) (fs : FS)
    (hcr : '\r' ∉ content) (hne : content ≠ []) :
    (content.getLast? = some '\n' →
      ((Changer.fromContent f content).execute fs).1 f.path = some content) ∧
    (content.getLast? ≠ some '\n' →
      ((Changer.fromContent f content).execute fs).1 f.path =
        some (content ++ ['\n'])) := by
  constructor
  · intro hnl
    have hd : content.dropLast ++ ['\n'] = content :=
      List.dropLast_append_getLast? '\n' (Option.mem_def.mpr hnl)
    obtain ⟨s, rfl⟩ : ∃ s, content = s ++ ['\n'] := ⟨content.dropLast, hd.symm⟩
    have hcrs : '\r' ∉ s := fun hm => hcr (List.mem_append_left _ hm)
    show (writeFile fs f.path (commitLines (linesOf (s ++ ['\n'])))) f.path =
      some (s ++ ['\n'])
    rw [linesOf_of_trailing_nl s hcrs,
      commitLines_eq_joinChar _ (splitChar_ne_nil '\n' s), joinChar_splitChar]
    unfold writeFile
    simp
  · intro hnl
    show (writeFile fs f.path (commitLines (linesOf content))) f.path =
      some (content ++ ['\n'])
    rw [linesOf_of_no_trailing_nl content hcr hne hnl,
      commitLines_eq_joinChar _ (splitChar_ne_nil '\n' content), joinChar_splitChar]
    unfold writeFile
    simp

/-- Witness for C10: a newline-terminated LF-only file is reproduced exactly,
and one missing the final newline gains exactly one. -/
theorem claim_C10_witness :
    ((Changer.fromContent (FileAPI.fromPath (("x").data)) (("a\nb\n").data)).execute
        (fun _ => none)).1 (("x").data) = some (("a\nb\n").data) ∧
    ((Changer.fromContent (FileAPI.fromPath (("x").data)) (("a\nb").data)).execute
        (fun _ => none)).1 (("x").data) = some ((("a\nb").data) ++ ['\n']) := by
  have h1 := claim_C10_amended (FileAPI.fromPath (("x").data)) (("a\nb\n").data)
    (fun _ => none) (by decide) (by decide)
  have h2 := claim_C10_amended (FileAPI.fromPath (("x").data)) (("a\nb").data)
    (fun _ => none) (by decide) (by decide)
  exact ⟨h1.1 (by decide), h2.2 (by decide)⟩

/-- Claim C4 counterexample: when the replacement value itself contains the
configured delimiter, the committed line re-splits into more fields, so a
fresh read of the changed coordinate does not return the stored value: after
change_value(1, 1, a-comma-b) on the one-line file 1,2 the fresh read of
coordinate (1,1) yields only the prefix before the comma. -/
theorem claim_C4_counterexample :
    ((Changer.fromContent ((FileAPI.fromPath (("y").data)).setSplit ',')
        (("1,2").data)).change_value 1 1 (("a,b").data)).map
      (fun c' => gridField? ',' (commitLines c'.lines) 1 1) =
      .ok (some (("a").data)) ∧
    (("a").data) ≠ (("a,b").data) := by
  constructor
  · rfl
  · decide

/-- Claim C4 (amended): for a replacement value free of the delimiter,
newlines and carriage returns, applied to a line sequence free of newlines
and carriage returns with a delimiter that is neither, an in-bounds
change_value replaces exactly the addressed field of the addressed line with
the literal replacement string, leaving every other line and every other
field of that line unchanged; after committing, a fresh reader queues the new
value at the same coordinate, and every other coordinate reads the same field
as before. -/
theorem claim_C4 (c : Changer) (line row : Nat) (value aL : Str) (fs : FS)
    (hwf : ∀ l ∈ c.lines, '\n' ∉ l ∧ '\r' ∉ l)
    (hs1 : c.file.split ≠ '\n') (hs2 : c.file.split ≠ '\r')
    (hL : idx1? c.lines line = some aL)
    (hR : ∃ w, idx1? (splitChar c.file.split aL) row = some w)
    (hv1 : '\n' ∉ value) (hv2 : '\r' ∉ value) (hv3 : c.file.split ∉ value) :
    ∃ c' : Changer,
      c.change_value line row value = .ok c' ∧
      c'.file = c.file ∧
      c'.lines = c.lines.set (line - 1)
        (joinChar c.file.split ((splitChar c.file.split aL).set (row - 1) value)) ∧
      (∀ l', l' ≠ line → idx1? c'.lines l' = idx1? c.lines l') ∧
      (∀ r', r' ≠ row →
        idx1? (splitChar c.file.split
            (joinChar c.file.split ((splitChar c.file.split aL).set (row - 1) value))) r' =
          idx1? (splitChar c.file.split aL) r') ∧
      (∃ rdr : Reader,
        c.file.reader (c'.execute fs).1 = .ok rdr ∧
        rdr.read_value line row = .ok { rdr with values := rdr.values ++ [value] } ∧
        (∀ l' r', l' ≠ line ∨ r' ≠ row →
          gridField? c.file.split rdr.lines l' r' = fieldAt c.file.split c.lines l' r')) := by
  obtain ⟨w, hw⟩ := hR
  have hline0 : line ≠ 0 := by
    intro h
    rw [h] at hL
    simp [idx1?] at hL
  have hrow0 : row ≠ 0 := by
    intro h
    rw [h] at hw
    simp [idx1?] at hw
  have hLn : nth? c.lines (line - 1) = some aL := by
    unfold idx1? at hL
    rw [if_neg hline0] at hL
    exact hL
  have hwn : nth? (splitChar c.file.split aL) (row - 1) = some w := by
    unfold idx1? at hw
    rw [if_neg hrow0] at hw
    exact hw
  have hlinelt : line - 1 < c.lines.length := nth?_lt_length _ _ _ hLn
  have hrowlt : row - 1 < (splitChar c.file.split aL).length := nth?_lt_length _ _ _ hwn
  have haLmem : aL ∈ c.lines := nth?_mem _ _ _ hLn
  have hfne : (splitChar c.file.split aL).set (row - 1) value ≠ [] :=
    set_ne_nil _ _ _ (splitChar_ne_nil c.file.split aL)
  have hfnod : ∀ p ∈ (splitChar c.file.split aL).set (row - 1) value, c.file.split ∉ p := by
    intro p hp
    rcases mem_set_subset _ _ _ _ hp with h1 | h1
    · exact not_mem_of_mem_splitChar c.file.split aL p h1
    · rw [h1]
      exact hv3
  have hsplitnew : splitChar c.file.split
      (joinChar c.file.split ((splitChar c.file.split aL).set (row - 1) value)) =
      (splitChar c.file.split aL).set (row - 1) value :=
    splitChar_joinChar c.file.split _ hfne hfnod
  have haLwf := hwf aL haLmem
  have hnew_chars : ∀ ch,
      ch ∈ joinChar c.file.split ((splitChar c.file.split aL).set (row - 1) value) →
      ch = c.file.split ∨ ch ∈ value ∨ ch ∈ aL := by
    intro ch hch
    rcases mem_joinChar c.file.split _ ch hch with h1 | ⟨p, hp, hcp⟩
    · exact Or.inl h1
    · rcases mem_set_subset _ _ _ _ hp with h2 | h2
      · exact Or.inr (Or.inr (mem_of_mem_splitChar c.file.split aL p h2 ch hcp))
      · exact Or.inr (Or.inl (h2 ▸ hcp))
  have hnew_nl : '\n' ∉
      joinChar c.file.split ((splitChar c.file.split aL).set (row - 1) value) := by
    intro hch
    rcases hnew_chars '\n' hch with h1 | h1 | h1
    · exact hs1 h1.symm
    · exact hv1 h1
    · exact haLwf.1 h1
  have hnew_cr : '\r' ∉
      joinChar c.file.split ((splitChar c.file.split aL).set (row - 1) value) := by
    intro hch
    rcases hnew_chars '\r' hch with h1 | h1 | h1
    · exact hs2 h1.symm
    · exact hv2 h1
    · exact haLwf.2 h1
  have hlines_frame : ∀ l', l' ≠ line →
      idx1? (c.lines.set (line - 1)
        (joinChar c.file.split ((splitChar c.file.split aL).set (row - 1) value))) l' =
      idx1? c.lines l' := by
    intro l' hll
    unfold idx1?
    by_cases h0 : l' = 0
    · rw [if_pos h0, if_pos h0]
    · rw [if_neg h0, if_neg h0]
      exact nth?_set_ne _ _ _ _ (by omega)
  have hfields_frame : ∀ r', r' ≠ row →
      idx1? ((splitChar c.file.split aL).set (row - 1) value) r' =
      idx1? (splitChar c.file.split aL) r' := by
    intro r' hrr
    unfold idx1?
    by_cases h0 : r' = 0
    · rw [if_pos h0, if_pos h0]
    · rw [if_neg h0, if_neg h0]
      exact nth?_set_ne _ _ _ _ (by omega)
  have hnewlookup : idx1? (c.lines.set (line - 1)
      (joinChar c.file.split ((splitChar c.file.split aL).set (row - 1) value))) line =
      some (joinChar c.file.split ((splitChar c.file.split aL).set (row - 1) value)) := by
    unfold idx1?
    rw [if_neg hline0]
    exact nth?_set_self _ _ _ hlinelt
  have hwf' : ∀ l ∈ c.lines.set (line - 1)
      (joinChar c.file.split ((splitChar c.file.split aL).set (row - 1) value)),
      '\n' ∉ l ∧ l.getLast? ≠ some '\r' := by
    intro l hl
    rcases mem_set_subset _ _ _ _ hl with h1 | h1
    · exact ⟨(hwf l h1).1, getLast?_ne_of_not_mem (hwf l h1).2⟩
    · rw [h1]
      exact ⟨hnew_nl, getLast?_ne_of_not_mem hnew_cr⟩
  have hround : linesOf (commitLines (c.lines.set (line - 1)
      (joinChar c.file.split ((splitChar c.file.split aL).set (row - 1) value)))) =
      c.lines.set (line - 1)
        (joinChar c.file.split ((splitChar c.file.split aL).set (row - 1) value)) :=
    linesOf_commitLines _ hwf'
  refine ⟨⟨c.lines.set (line - 1)
      (joinChar c.file.split ((splitChar c.file.split aL).set (row - 1) value)), c.file⟩,
    change_value_ok c line row value aL w hL hw, rfl, rfl, hlines_frame, ?_, ?_⟩
  · intro r' hrr
    rw [hsplitnew]
    exact hfields_frame r' hrr
  · refine ⟨Reader.fromContent c.file (commitLines (c.lines.set (line - 1)
      (joinChar c.file.split ((splitChar c.file.split aL).set (row - 1) value)))),
      ?_, ?_, ?_⟩
    · show (match (writeFile fs c.file.path (commitLines (c.lines.set (line - 1)
          (joinChar c.file.split ((splitChar c.file.split aL).set (row - 1) value)))))
            c.file.path with
        | none => Except.error Err.ioError
        | some content => Except.ok (Reader.fromContent c.file content)) = _
      unfold writeFile
      rw [if_pos rfl]
    · apply read_value_ok
      show fieldAt c.file.split (linesOf (commitLines (c.lines.set (line - 1)
        (joinChar c.file.split ((splitChar c.file.split aL).set (row - 1) value)))))
        line row = some value
      rw [hround]
      unfold fieldAt
      rw [hnewlookup]
      dsimp only
      rw [hsplitnew]
      unfold idx1?
      rw [if_neg hrow0]
      exact nth?_set_self _ _ _ (by simpa [List.length_set] using hrowlt)
    · intro l' r' hor
      show gridField? c.file.split (commitLines (c.lines.set (line - 1)
        (joinChar c.file.split ((splitChar c.file.split aL).set (row - 1) value))))
        l' r' = fieldAt c.file.split c.lines l' r'
      unfold gridField?
      rw [hround]
      by_cases hll : l' = line
      · subst hll
        have hrr : r' ≠ row := by
          rcases hor with h | h
          · exact absurd rfl h
          · exact h
        unfold fieldAt
        rw [hnewlookup, hL]
        dsimp only
        rw [hsplitnew]
        exact hfields_frame r' hrr
      · unfold fieldAt
        rw [hlines_frame l' hll]

/-- Witness for C4: changing field (2,2) of the sample grid to a literal
value, with every hypothesis discharged on concrete data. -/
theorem claim_C4_witness :
    ∃ c' : Changer,
      (Changer.fromContent sampleFile sampleText).change_value 2 2 (("99").data) =
        .ok c' ∧
      c'.file = (Changer.fromContent sampleFile sampleText).file ∧
      c'.lines = (Changer.fromContent sampleFile sampleText).lines.set 1
        (joinChar sampleFile.split ((splitChar sampleFile.split (("4,5,6").data)).set 1
          (("99").data))) ∧
      (∀ l', l' ≠ 2 → idx1? c'.lines l' =
        idx1? (Changer.fromContent sampleFile sampleText).lines l') ∧
      (∀ r', r' ≠ 2 →
        idx1? (splitChar sampleFile.split
            (joinChar sampleFile.split ((splitChar sampleFile.split
              (("4,5,6").data)).set 1 (("99").data)))) r' =
          idx1? (splitChar sampleFile.split (("4,5,6").data)) r') ∧
      (∃ rdr : Reader,
        sampleFile.reader (c'.execute (fun _ => none)).1 = .ok rdr ∧
        rdr.read_value 2 2 = .ok { rdr with values := rdr.values ++ [("99").data] } ∧
        (∀ l' r', l' ≠ 2 ∨ r' ≠ 2 →
          gridField? sampleFile.split rdr.lines l' r' =
            fieldAt sampleFile.split (Changer.fromContent sampleFile sampleText).lines
              l' r')) :=
  claim_C4 (Changer.fromContent sampleFile sampleText) 2 2 (("99").data)
    (("4,5,6").data) (fun _ => none) (by decide) (by decide) (by decide) (by decide)
    ⟨("5").data, by decide⟩ (by decide) (by decide) (by decide)

end SimpleFileManager
